import Mathlib

/-
  Verification development for the Reddit-Realtime-Analytics repository.

  The analytics engine (analytics.py, class RedditAnalytics) is shallowly
  embedded below.  Records come out of HBase through `to_dataframe`; the
  repository's own writers (hbase_manager.store_post / store_comment) always
  write every column of a record as a decoded string (missing upstream values
  are stored as the empty string or a default), so a corpus row is modelled as
  a structure whose fields are all `String`.

  Python floats are modelled as rationals (ℚ); `float(str)` is modelled by
  `parseFloat?`, a decimal-literal parser (optional sign, digits, optional
  fractional part) returning `none` exactly when Python's parse of the stored
  numerals would raise; code paths that can raise are embedded in `Except`.
  Python dicts (insertion ordered) are modelled as association lists updated
  in place with new keys appended at the end, and Python's stable `sorted`
  with `reverse=True` is modelled by a stable insertion sort on a key.
-/

/- Let definitional unfolding reach the core rational arithmetic so that
concrete runs of the embedded code can be checked by `decide`. -/
attribute [local semireducible] Rat.add Rat.mul Rat.inv Rat.sub

/-- Equality of embedded fallible results is decidable (used to evaluate the
embedded operations at concrete inputs). -/
instance {ε α : Type} [DecidableEq ε] [DecidableEq α] :
    DecidableEq (Except ε α) := fun a b =>
  match a, b with
  | Except.error e, Except.error f =>
      decidable_of_iff (e = f)
        ⟨fun h => by rw [h], fun h => by injection h⟩
  | Except.ok x, Except.ok y =>
      decidable_of_iff (x = y)
        ⟨fun h => by rw [h], fun h => by injection h⟩
  | Except.error _, Except.ok _ => isFalse (fun h => Except.noConfusion h)
  | Except.ok _, Except.error _ => isFalse (fun h => Except.noConfusion h)

/-- A row of the `reddit_posts` table, as written by `store_post`:
every column is present and holds a decoded string. -/
structure Post where
  id : String
  title : String
  selftext : String
  subreddit : String
  author : String
  created_utc : String
  score : String
  ups : String
  downs : String
  num_comments : String
deriving DecidableEq, Repr

/-- A row of the `reddit_comments` table, as written by `store_comment`. -/
structure Comment where
  id : String
  post_id : String
  text : String
  author : String
  created_utc : String
  parent_id : String
  score : String
  ups : String
  downs : String
deriving DecidableEq, Repr

/-! ### Model of Python `float(str)` on the stored numerals -/

/-- Value of a digit list read most-significant first. -/
def digitsVal (l : List Char) : ℚ :=
  l.foldl (fun acc c => acc * 10 + (c.toNat - '0'.toNat : ℕ)) 0

/-- Fractional value of a digit list (digits after the decimal point). -/
def fracVal (l : List Char) : ℚ :=
  digitsVal l / (10 : ℚ) ^ l.length

/-- Model of Python `float(s)` restricted to plain decimal literals:
an optional sign, then digits with an optional fractional part, at least one
digit overall.  Returns `none` (the code raises `ValueError`) otherwise.
This covers every numeral the repository's store layer writes
(`str(int)` values); exotic accepted forms of Python `float` such as
exponents, `inf` or surrounding whitespace are outside the model. -/
def parseFloat? (s : String) : Option ℚ :=
  let cs := s.toList
  let signAndRest : ℚ × List Char :=
    match cs with
    | '-' :: rest => (-1, rest)
    | '+' :: rest => (1, rest)
    | rest => (1, rest)
  let sign := signAndRest.1
  let body := signAndRest.2
  let intPart := body.takeWhile Char.isDigit
  let afterInt := body.dropWhile Char.isDigit
  match afterInt with
  | [] =>
      if intPart.isEmpty then none
      else some (sign * digitsVal intPart)
  | '.' :: fracPart =>
      if fracPart.all Char.isDigit ∧ ¬(intPart.isEmpty ∧ fracPart.isEmpty) then
        some (sign * (digitsVal intPart + fracVal fracPart))
      else none
  | _ => none

/-- Model of `(parseFloat? s).getD 0`: the parsed value, defaulting to `0`.  Only used
in statements whose hypotheses force every relevant parse to succeed. -/
def parsedD (s : String) : ℚ :=
  (parseFloat? s).getD 0

/-! ### Python dict as an ordered association list -/

/-- Lookup in an association list with a default, first binding wins. -/
def lookupD {β : Type} (m : List (String × β)) (k : String) (d : β) : β :=
  match m with
  | [] => d
  | (k', v) :: rest => if k' = k then v else lookupD rest k d

/-- Model of `m[k] = m.get(k, 0) + δ` on a Python dict: update the existing binding in
place, or append a fresh binding `(k, δ)` at the end (insertion order). -/
def bump {β : Type} [Add β] (m : List (String × β)) (k : String) (δ : β) :
    List (String × β) :=
  match m with
  | [] => [(k, δ)]
  | (k', v) :: rest =>
      if k' = k then (k', v + δ) :: rest else (k', v) :: bump rest k δ

/-! ### Stable sorts by a key
`sortKeyDesc` models Python `sorted(items, key=..., reverse=True)` (stable,
descending); `sortVocab` below models the plain ascending `sorted` applied
to the vectorizer vocabulary. -/

/-- Insert `x` in front of the first element whose key is not strictly
greater.  When the tail was produced from later input elements, this places
`x` before every equal-key element, which is Python's stable order. -/
def insKey {α β : Type} [LinearOrder β] (key : α → β) (x : α) :
    List α → List α
  | [] => [x]
  | y :: ys => if key x < key y then y :: insKey key x ys else x :: y :: ys

/-- Stable sort, descending in `key`. -/
def sortKeyDesc {α β : Type} [LinearOrder β] (key : α → β) (l : List α) :
    List α :=
  l.foldr (insKey key) []

/-- Code-point lexicographic order on character lists: the order Python's
`sorted` uses on strings. -/
def listLt : List Char → List Char → Bool
  | [], [] => false
  | [], _ :: _ => true
  | _ :: _, [] => false
  | a :: as, b :: bs =>
      if a.toNat < b.toNat then true
      else if b.toNat < a.toNat then false
      else listLt as bs

/-- Ascending insertion for the vocabulary sort. -/
def insVocab (x : String) : List String → List String
  | [] => [x]
  | y :: ys =>
      if listLt y.toList x.toList then y :: insVocab x ys else x :: y :: ys

/-- Model of `sorted(vocabulary)`: ascending code-point order. -/
def sortVocab (l : List String) : List String :=
  l.foldr insVocab []

/-! ### Frequency ranker: `get_top_subreddits` / `get_top_authors`
`df[col].value_counts().head(limit).items()`: count every value of the
column (all columns are present strings in this pipeline, so nothing is
dropped), order by count descending, truncate. -/

/-- Tally of a column: first-seen key order, as a Python/pandas hash table. -/
def countValues (l : List String) : List (String × ℕ) :=
  l.foldl (fun m v => bump m v 1) []

/-- Result of `value_counts` sorted descending by count, truncated to `limit`,
guarded by the `df.empty` check of the source. -/
def top_values (posts : List Post) (field : Post → String) (limit : ℕ) :
    List (String × ℕ) :=
  if posts = [] then []
  else (sortKeyDesc Prod.snd (countValues (posts.map field))).take limit

/-- Model of `RedditAnalytics.get_top_subreddits`. -/
def get_top_subreddits (posts : List Post) (limit : ℕ) : List (String × ℕ) :=
  top_values posts (fun p => p.subreddit) limit

/-- Model of `RedditAnalytics.get_top_authors`. -/
def get_top_authors (posts : List Post) (limit : ℕ) : List (String × ℕ) :=
  top_values posts (fun p => p.author) limit

/-! ### Engagement aggregator: `get_engagement_metrics` -/

/-- Model of `Series.astype(float)`: parse every entry, failing (raising) as soon as
one entry does not parse. -/
def parseAll : List String → Option (List ℚ)
  | [] => some []
  | s :: rest =>
      match parseFloat? s, parseAll rest with
      | some q, some qs => some (q :: qs)
      | _, _ => none

/-- Model of `RedditAnalytics.get_engagement_metrics`: `(avg_score, avg_comments)`.
Empty corpus gives `(0, 0)`; a non-parseable `metrics:score` or
`metrics:num_comments` value makes `astype(float)` raise (`Except.error`);
otherwise each average is the arithmetic mean over all records. -/
def get_engagement_metrics (posts : List Post) : Except Unit (ℚ × ℚ) :=
  if posts = [] then Except.ok (0, 0)
  else
    match parseAll (posts.map (fun p => p.score)),
        parseAll (posts.map (fun p => p.num_comments)) with
    | some ss, some cs =>
        Except.ok (ss.sum / ss.length, cs.sum / cs.length)
    | _, _ => Except.error ()

/-! ### Sentiment classifier: `get_sentiment_trends` -/

/-- The three sentiment buckets returned by `get_sentiment_trends`. -/
structure Sentiment where
  positive : ℚ
  neutral : ℚ
  negative : ℚ
deriving DecidableEq, Repr

/-- The counting and normalization core of `get_sentiment_trends`:
`polarity > 0` counts as positive, `polarity < 0` as negative, anything else
as neutral; the three counts are divided by their total when it is positive
and returned raw otherwise. -/
def sentimentOf (polarity : String → ℚ) (texts : List String) : Sentiment :=
  let pos := texts.countP (fun t => 0 < polarity t)
  let neg := texts.countP (fun t => polarity t < 0)
  let neu := texts.countP (fun t => ¬ 0 < polarity t ∧ ¬ polarity t < 0)
  let total := pos + neg + neu
  if 0 < total then
    ⟨(pos : ℚ) / total, (neu : ℚ) / total, (neg : ℚ) / total⟩
  else ⟨(pos : ℚ), (neu : ℚ), (neg : ℚ)⟩

/-- Model of `RedditAnalytics.get_sentiment_trends`, parameterized by the TextBlob
polarity scorer (an external library, modelled as an arbitrary function from
text to a rational polarity).  Classifies the post titles followed by the
comment texts (in this pipeline the text columns exist exactly when the
corresponding dataframe is non-empty, and `dropna` drops nothing). -/
def get_sentiment_trends (polarity : String → ℚ) (posts : List Post)
    (comments : List Comment) : Sentiment :=
  if posts = [] ∧ comments = [] then ⟨0, 0, 0⟩
  else
    sentimentOf polarity
      (posts.map (fun p => p.title) ++ comments.map (fun c => c.text))

/-! ### Reply graph and betweenness centrality (`networkx`) -/

/-- Python `s.startswith(pre)`. -/
def strStartsWith (s pre : String) : Bool :=
  pre.toList.isPrefixOf s.toList

/-- Python `s[n:]`. -/
def strDrop (s : String) (n : ℕ) : String :=
  String.mk (s.toList.drop n)

/-- A `networkx.DiGraph`: node list in insertion order, simple edge list. -/
structure NxDiGraph where
  nodes : List String
  edges : List (String × String)
deriving DecidableEq, Repr

/-- Register a node, keeping insertion order and uniqueness. -/
def addNode (G : NxDiGraph) (v : String) : NxDiGraph :=
  if v ∈ G.nodes then G else { G with nodes := G.nodes ++ [v] }

/-- Append the edge `(u, v)` if it is new (set semantics, no multi-edges). -/
def addEdgeAux (G1 : NxDiGraph) (u v : String) : NxDiGraph :=
  if (u, v) ∈ G1.edges then G1 else ⟨G1.nodes, G1.edges ++ [(u, v)]⟩

/-- Model of `G.add_edge(u, v)`: adds both endpoints as nodes, then the edge. -/
def addEdge (G : NxDiGraph) (u v : String) : NxDiGraph :=
  addEdgeAux (addNode (addNode G u) v) u v

/-- The edge contributed by one comment row in the `get_user_influence` graph
loop: requires a truthy author, a truthy `parent_id` with the comment prefix
`t1_`, and a resolvable parent (first comment whose `comment_data:id` equals
`parent_id[3:]`); the edge runs child author → parent author. -/
def edgeOf (comments : List Comment) (c : Comment) : Option (String × String) :=
  if c.author ≠ "" ∧ c.parent_id ≠ "" ∧ strStartsWith c.parent_id "t1_" then
    match comments.find? (fun p => p.id = strDrop c.parent_id 3) with
    | some p => some (c.author, p.author)
    | none => none
  else none

/-- The reply graph built by the comment loop of `get_user_influence`. -/
def buildReplyGraph (comments : List Comment) : NxDiGraph :=
  comments.foldl
    (fun G c =>
      match edgeOf comments c with
      | some e => addEdge G e.1 e.2
      | none => G)
    ⟨[], []⟩

/-- Successors of `u`. -/
def adjG (G : NxDiGraph) (u : String) : List String :=
  (G.edges.filter (fun e => e.1 = u)).map Prod.snd

/-- Predecessors of `t`. -/
def predsG (G : NxDiGraph) (t : String) : List String :=
  (G.edges.filter (fun e => e.2 = t)).map Prod.fst

/-- Breadth-first layers from a frontier; fuel bounds the depth by the node
count, which suffices since layers grow the seen set. -/
def bfsLayers (G : NxDiGraph) : List String → List String → ℕ → List (List String)
  | _, _, 0 => []
  | seen, frontier, fuel + 1 =>
      let nxt := ((frontier.map (adjG G)).flatten.filter (fun x => ¬ x ∈ seen)).dedup
      if nxt = [] then [] else nxt :: bfsLayers G (seen ++ nxt) nxt fuel

/-- Shortest directed distance, `none` when unreachable. -/
def distG (G : NxDiGraph) (s t : String) : Option ℕ :=
  if s = t then some 0
  else ((bfsLayers G [s] [s] G.nodes.length).findIdx? (fun L => t ∈ L)).map
    (fun i => i + 1)

/-- Number of paths of length exactly `d` from `s` to `t` that descend the
shortest-path DAG (every hop lands on a vertex at its BFS distance). -/
def countSP (G : NxDiGraph) (s : String) : ℕ → String → ℕ
  | 0, t => if t = s then 1 else 0
  | d + 1, t =>
      (((predsG G t).filter (fun u => distG G s u = some d)).map
        (countSP G s d)).sum

/-- Number of shortest `s`–`t` paths (`σ_st`). -/
def sigmaG (G : NxDiGraph) (s t : String) : ℕ :=
  match distG G s t with
  | none => 0
  | some d => countSP G s d t

/-- Contribution of the pair `(s, t)` to the betweenness of `v`:
`σ_st(v) / σ_st`, using `σ_st(v) = σ_sv · σ_vt` when `v` lies on a shortest
`s`–`t` path and `0` otherwise. -/
def btwPair (G : NxDiGraph) (s t v : String) : ℚ :=
  if s ≠ v ∧ t ≠ v ∧ s ≠ t then
    match distG G s t, distG G s v, distG G v t with
    | some d, some d1, some d2 =>
        if d1 + d2 = d then
          ((sigmaG G s v * sigmaG G v t : ℕ) : ℚ) / ((sigmaG G s t : ℕ) : ℚ)
        else 0
    | _, _, _ => 0
  else 0

/-- Unnormalized betweenness of `v`. -/
def btwRaw (G : NxDiGraph) (v : String) : ℚ :=
  (G.nodes.map (fun s => (G.nodes.map (fun t => btwPair G s t v)).sum)).sum

/-- The `networkx` normalization for a directed graph:
`1 / ((n-1)(n-2))` when `n > 2`, otherwise no rescaling. -/
def nxScale (n : ℕ) : ℚ :=
  if 2 < n then 1 / (((n : ℚ) - 1) * ((n : ℚ) - 2)) else 1

/-- Model of `nx.betweenness_centrality(G)`: one entry per node, node order. -/
def betweennessAll (G : NxDiGraph) : List (String × ℚ) :=
  G.nodes.map (fun v => (v, btwRaw G v * nxScale G.nodes.length))

/-- Centrality of an author, `0` for authors outside the graph. -/
def betweennessOf (G : NxDiGraph) (a : String) : ℚ :=
  lookupD (betweennessAll G) a 0

/-! ### Influence scorer: `get_user_influence` -/

/-- The posts loop: `score = float(row['metrics:score'])` (raising on a
malformed numeral even when the author is falsy), then
`influence[author] = influence.get(author, 0) + score` when the author is
truthy (non-empty). -/
def accPosts (m : List (String × ℚ)) :
    List Post → Except Unit (List (String × ℚ))
  | [] => Except.ok m
  | p :: ps =>
      match parseFloat? p.score with
      | none => Except.error ()
      | some s => accPosts (if p.author ≠ "" then bump m p.author s else m) ps

/-- The comments loop, identical but weighted by `0.5`. -/
def accComments (m : List (String × ℚ)) :
    List Comment → Except Unit (List (String × ℚ))
  | [] => Except.ok m
  | c :: cs =>
      match parseFloat? c.score with
      | none => Except.error ()
      | some s =>
          accComments (if c.author ≠ "" then bump m c.author (s * (1 / 2)) else m) cs

/-- The centrality loop: `influence[node] = influence.get(node, 0) +
centrality[node] * 100` for every node of the graph. -/
def addCent (m : List (String × ℚ)) :
    List (String × ℚ) → List (String × ℚ)
  | [] => m
  | (v, c) :: rest => addCent (bump m v (c * 100)) rest

/-- The full `influence` dict of `get_user_influence` right before the final
`sorted(...)`: posts loop, comments loop, then the centrality loop guarded by
`if G.nodes:`. -/
def influenceDict (posts : List Post) (comments : List Comment) :
    Except Unit (List (String × ℚ)) :=
  match accPosts [] posts with
  | Except.error e => Except.error e
  | Except.ok m1 =>
      match accComments m1 comments with
      | Except.error e => Except.error e
      | Except.ok m2 =>
          let G := buildReplyGraph comments
          Except.ok (if G.nodes ≠ [] then addCent m2 (betweennessAll G) else m2)

/-- Model of `RedditAnalytics.get_user_influence`: empty-input guard, the three
accumulation loops, then `sorted(influence.items(), key=lambda x: x[1],
reverse=True)[:limit]`. -/
def get_user_influence (posts : List Post) (comments : List Comment)
    (limit : ℕ) : Except Unit (List (String × ℚ)) :=
  if posts = [] ∧ comments = [] then Except.ok []
  else
    match influenceDict posts comments with
    | Except.error e => Except.error e
    | Except.ok m3 => Except.ok ((sortKeyDesc Prod.snd m3).take limit)

/-- Sum of the (parsed) scores of the posts authored by `a`
(the "post scores" signal of the specification). -/
def postScoreSum (posts : List Post) (a : String) : ℚ :=
  ((posts.filter (fun p => p.author = a)).map (fun p => parsedD p.score)).sum

/-- Sum of the (parsed) scores of the comments authored by `a`. -/
def commentScoreSum (comments : List Comment) (a : String) : ℚ :=
  ((comments.filter (fun c => c.author = a)).map (fun c => parsedD c.score)).sum

/-! ### Topic extractor: `get_topics`
`CountVectorizer(stop_words='english', max_df=0.95, min_df=2)` followed by
`LatentDirichletAllocation(n_components=num_topics, random_state=42)`.
The vectorizer is embedded in full (tokenizer, stop list, document-frequency
cutoffs, alphabetical feature order, and its `ValueError` on an empty
vocabulary).  The fitted LDA is an external numerical routine; it enters the
embedding as a parameter `W` giving the component weight matrix as a function
of the document-term matrix and the random seed, which the code fixes at
`42`; scikit-learn guarantees `components_` has shape
`(n_components, n_features)`. -/

/-- A regex `\w` character. -/
def isWordChar (c : Char) : Bool :=
  c.isAlphanum || c = '_'

/-- Split into maximal runs of word characters (`cur` holds the current run
reversed). -/
def tokAux (cur : List Char) : List Char → List (List Char)
  | [] => if cur.isEmpty then [] else [cur.reverse]
  | c :: cs =>
      if isWordChar c then tokAux (c :: cur) cs
      else if cur.isEmpty then tokAux [] cs
      else cur.reverse :: tokAux [] cs

/-- ASCII lowercasing of one character (the titles this pipeline stores are
handled exactly as by Python's `str.lower`; the non-ASCII part of the
Unicode table is outside the model). -/
def toLowerChar (c : Char) : Char :=
  if 'A'.toNat ≤ c.toNat ∧ c.toNat ≤ 'Z'.toNat then Char.ofNat (c.toNat + 32)
  else c

/-- The sklearn analyzer's tokenization: lowercase, then the token pattern
`\b\w\w+\b` (runs of at least two word characters). -/
def tokenize (s : String) : List String :=
  ((tokAux [] (s.toList.map toLowerChar)).map (fun run => String.mk run)).filter
    (fun t => 2 ≤ t.length)

/-- scikit-learn's built-in `english` stop word list. -/
def ENGLISH_STOP_WORDS : List String :=
  ["a", "about", "above", "across", "after", "afterwards", "again", "against",
   "all", "almost", "alone", "along", "already", "also", "although", "always",
   "am", "among", "amongst", "amoungst", "amount", "an", "and", "another",
   "any", "anyhow", "anyone", "anything", "anyway", "anywhere", "are",
   "around", "as", "at", "back", "be", "became", "because", "become",
   "becomes", "becoming", "been", "before", "beforehand", "behind", "being",
   "below", "beside", "besides", "between", "beyond", "bill", "both",
   "bottom", "but", "by", "call", "can", "cannot", "cant", "co", "con",
   "could", "couldnt", "cry", "de", "describe", "detail", "do", "done",
   "down", "due", "during", "each", "eg", "eight", "either", "eleven",
   "else", "elsewhere", "empty", "enough", "etc", "even", "ever", "every",
   "everyone", "everything", "everywhere", "except", "few", "fifteen",
   "fifty", "fill", "find", "fire", "first", "five", "for", "former",
   "formerly", "forty", "found", "four", "from", "front", "full", "further",
   "get", "give", "go", "had", "has", "hasnt", "have", "he", "hence", "her",
   "here", "hereafter", "hereby", "herein", "hereupon", "hers", "herself",
   "him", "himself", "his", "how", "however", "hundred", "i", "ie", "if",
   "in", "inc", "indeed", "interest", "into", "is", "it", "its", "itself",
   "keep", "last", "latter", "latterly", "least", "less", "ltd", "made",
   "many", "may", "me", "meanwhile", "might", "mill", "mine", "more",
   "moreover", "most", "mostly", "move", "much", "must", "my", "myself",
   "name", "namely", "neither", "never", "nevertheless", "next", "nine",
   "no", "nobody", "none", "noone", "nor", "not", "nothing", "now",
   "nowhere", "of", "off", "often", "on", "once", "one", "only", "onto",
   "or", "other", "others", "otherwise", "our", "ours", "ourselves", "out",
   "over", "own", "part", "per", "perhaps", "please", "put", "rather", "re",
   "same", "see", "seem", "seemed", "seeming", "seems", "serious", "several",
   "she", "should", "show", "side", "since", "sincere", "six", "sixty",
   "so", "some", "somehow", "someone", "something", "sometime", "sometimes",
   "somewhere", "still", "such", "system", "take", "ten", "than", "that",
   "the", "their", "them", "themselves", "then", "thence", "there",
   "thereafter", "thereby", "therefore", "therein", "thereupon", "these",
   "they", "thick", "thin", "third", "this", "those", "though", "three",
   "through", "throughout", "thru", "thus", "to", "together", "too", "top",
   "toward", "towards", "twelve", "twenty", "two", "un", "under", "until",
   "up", "upon", "us", "very", "via", "was", "we", "well", "were", "what",
   "whatever", "when", "whence", "whenever", "where", "whereafter",
   "whereas", "whereby", "wherein", "whereupon", "wherever", "whether",
   "which", "while", "whither", "who", "whoever", "whole", "whom", "whose",
   "why", "will", "with", "within", "without", "would", "yet", "you",
   "your", "yours", "yourself", "yourselves"]

/-- The full analyzer: tokens with the stop words removed. -/
def analyzeDoc (s : String) : List String :=
  (tokenize s).filter (fun t => ¬ t ∈ ENGLISH_STOP_WORDS)

/-- Number of documents containing the term. -/
def docFreq (docs : List (List String)) (t : String) : ℕ :=
  (docs.filter (fun d => t ∈ d)).length

/-- Model of `CountVectorizer(stop_words='english', max_df=0.95, min_df=2)
.fit_transform(titles)`: analyzer over each document, vocabulary in sorted
order, then the document-frequency cutoffs `2 ≤ df` and `df ≤ 0.95·n`.
An empty vocabulary — before or after pruning — raises `ValueError`.
Returns `(feature_names, X)` with `X` the per-document term counts. -/
def fitTransform (titles : List String) :
    Except String (List String × List (List ℕ)) :=
  let docs := titles.map analyzeDoc
  let vocab0 := sortVocab docs.flatten.dedup
  if vocab0 = [] then Except.error "empty vocabulary"
  else
    let n := docs.length
    let vocab := vocab0.filter
      (fun t => 2 ≤ docFreq docs t ∧ ((docFreq docs t : ℚ) ≤ 95 / 100 * n))
    if vocab = [] then Except.error "After pruning, no terms remain"
    else Except.ok (vocab, docs.map (fun d => vocab.map (fun t => d.count t)))

/-- The external LDA fit: document-term matrix, random seed, topic index,
feature index ↦ component weight. -/
def LdaW : Type :=
  List (List ℕ) → ℕ → ℕ → ℕ → ℚ

/-- Model of `topic.argsort()[:-6:-1]`: the indices of the (at most) five largest
weights of a component row, largest first. -/
def topIdx (row : List ℚ) : List ℕ :=
  (sortKeyDesc (fun j => row.getD j 0) (List.range row.length)).take 5

/-- One formatted topic line. -/
def fmtTopic (i : ℕ) (featureNames : List String) (row : List ℚ) : String :=
  "Topic " ++ toString (i + 1) ++ ": " ++
    String.intercalate ", " ((topIdx row).map (fun j => featureNames.getD j ""))

/-- Model of `RedditAnalytics.get_topics`: empty-corpus guard (in this pipeline the
title column exists exactly when the dataframe is non-empty), the vectorizer
(whose failures propagate), the unreachable-here `X.shape[0] == 0` guard,
then one formatted line per LDA component. -/
def get_topics (W : LdaW) (posts : List Post) (numTopics : ℕ) :
    Except String (List String) :=
  if posts = [] then Except.ok []
  else
    match fitTransform (posts.map (fun p => p.title)) with
    | Except.error e => Except.error e
    | Except.ok fx =>
        if fx.2.length = 0 then Except.ok []
        else
          Except.ok ((List.range numTopics).map (fun i =>
            fmtTopic i fx.1 ((List.range fx.1.length).map (W fx.2 42 i))))

/-! ### Concrete corpora for witnesses and counterexamples -/

/-- Shorthand constructor for a post record (fixed filler fields). -/
def samplePost (i title sub author score ncom : String) : Post :=
  ⟨i, title, "", sub, author, "0", score, "0", "0", ncom⟩

def sp1 : Post := samplePost "1" "hello" "s" "alice" "5" "3"

def sp2 : Post := samplePost "2" "world" "s" "bob" "7" "1"

def spBadScore : Post := samplePost "3" "t" "s" "alice" "abc" "0"

def spEmptyAuthor : Post := samplePost "4" "t" "s" "" "5" "0"

def spAlice : Post := samplePost "5" "t" "s" "alice" "5" "0"

def spEmptySub : Post := samplePost "6" "t" "" "alice" "1" "0"

/-- Comment with the sentinel empty author (its id is the parent of `scB`). -/
def scA : Comment := ⟨"1", "p", "x", "", "0", "", "0", "0", "0"⟩

/-- Comment replying to comment `"1"`. -/
def scB : Comment := ⟨"2", "p", "y", "y", "0", "t1_1", "0", "0", "0"⟩

/-- Comment whose parent is a post (`t3_` prefix). -/
def scPost : Comment := ⟨"3", "p", "z", "zed", "0", "t3_9", "0", "0", "0"⟩

/-- Comment whose comment-type parent id resolves to nothing. -/
def scNoParent : Comment := ⟨"4", "p", "w", "wil", "0", "t1_99", "0", "0", "0"⟩

def tp1 : Post := samplePost "t1" "hello" "s" "a" "0" "0"

def tp2 : Post := samplePost "t2" "world" "s" "a" "0" "0"

def tp3 : Post := samplePost "t3" "hello world" "s" "a" "0" "0"

def tp4 : Post := samplePost "t4" "hello world quokka" "s" "a" "0" "0"

/-- A trivial LDA weight strategy (all weights zero). -/
def W0 : LdaW := fun _ _ _ _ => 0

/-! ## Helper lemmas -/

theorem lookupD_bump {β : Type} [AddMonoid β]
    (m : List (String × β)) (k k' : String) (δ : β) :
    lookupD (bump m k δ) k' 0 =
      lookupD m k' 0 + (if k = k' then δ else 0) := by
  induction m with
  | nil =>
      by_cases h : k = k' <;> simp [bump, lookupD, h]
  | cons hd tl ih =>
      obtain ⟨k₀, v₀⟩ := hd
      by_cases h0 : k₀ = k
      · subst h0
        by_cases h1 : k₀ = k'
        · subst h1; simp [bump, lookupD]
        · simp [bump, lookupD, h1]
      · by_cases h1 : k₀ = k'
        · subst h1
          have : ¬ k = k₀ := fun h => h0 h.symm
          simp [bump, lookupD, h0, this]
        · simp [bump, lookupD, h0, h1, ih]

theorem keys_bump {β : Type} [Add β] (m : List (String × β)) (k : String) (δ : β) :
    (bump m k δ).map Prod.fst =
      if k ∈ m.map Prod.fst then m.map Prod.fst else m.map Prod.fst ++ [k] := by
  induction m with
  | nil => simp [bump]
  | cons hd tl ih =>
      obtain ⟨k₀, v₀⟩ := hd
      by_cases h0 : k₀ = k
      · subst h0; simp [bump]
      · have : ¬ k = k₀ := fun h => h0 h.symm
        by_cases hk : k ∈ tl.map Prod.fst <;>
          simp [bump, h0, this, hk, ih]

theorem nodupKeys_bump {β : Type} [Add β] (m : List (String × β)) (k : String)
    (δ : β) (h : (m.map Prod.fst).Nodup) : ((bump m k δ).map Prod.fst).Nodup := by
  rw [keys_bump]
  by_cases hk : k ∈ m.map Prod.fst
  · rw [if_pos hk]; exact h
  · rw [if_neg hk]
    refine List.Nodup.append h (List.nodup_singleton k) ?_
    intro a ha hb
    rw [List.mem_singleton] at hb
    subst hb
    exact hk ha

/-- In an association list with no duplicate keys, a member `(a, v)` carries
exactly the looked-up value. -/
theorem mem_lookupD {β : Type} (m : List (String × β)) (a : String) (v d : β)
    (hnd : (m.map Prod.fst).Nodup) (hmem : (a, v) ∈ m) : lookupD m a d = v := by
  induction m with
  | nil => cases hmem
  | cons hd tl ih =>
      obtain ⟨k₀, v₀⟩ := hd
      rcases List.mem_cons.mp hmem with heq | htl
      · obtain ⟨rfl, rfl⟩ := Prod.mk.injEq .. ▸ heq
        simp [lookupD]
      · have hk : k₀ ≠ a := by
          rintro rfl
          exact (List.nodup_cons.mp hnd).1
            (List.mem_map.mpr ⟨(k₀, v), htl, rfl⟩)
        simpa [lookupD, hk] using ih (List.nodup_cons.mp hnd).2 htl

theorem mem_insKey {α β : Type} [LinearOrder β] (key : α → β) (x a : α)
    (l : List α) : a ∈ insKey key x l ↔ a = x ∨ a ∈ l := by
  induction l with
  | nil => simp [insKey]
  | cons y ys ih =>
      by_cases h : key x < key y
      · simp [insKey, h, ih]; tauto
      · simp [insKey, h]

theorem perm_insKey {α β : Type} [LinearOrder β] (key : α → β) (x : α)
    (l : List α) : List.Perm (insKey key x l) (x :: l) := by
  induction l with
  | nil => simp [insKey]
  | cons y ys ih =>
      simp only [insKey]
      by_cases h : key x < key y
      · rw [if_pos h]
        exact (ih.cons y).trans (List.Perm.swap x y ys)
      · rw [if_neg h]

theorem perm_sortKeyDesc {α β : Type} [LinearOrder β] (key : α → β)
    (l : List α) : List.Perm (sortKeyDesc key l) l := by
  induction l with
  | nil => simp [sortKeyDesc]
  | cons x xs ih => exact (perm_insKey key x _).trans (ih.cons x)

theorem pairwise_insKey {α β : Type} [LinearOrder β] (key : α → β) (x : α)
    (l : List α) (h : l.Pairwise (fun a b => key b ≤ key a)) :
    (insKey key x l).Pairwise (fun a b => key b ≤ key a) := by
  induction l with
  | nil => simp [insKey]
  | cons y ys ih =>
      rcases List.pairwise_cons.mp h with ⟨hy, hys⟩
      simp only [insKey]
      by_cases hxy : key x < key y
      · rw [if_pos hxy]
        refine List.pairwise_cons.mpr ⟨?_, ih hys⟩
        intro a ha
        rcases (mem_insKey key x a ys).mp ha with rfl | ha
        · exact le_of_lt hxy
        · exact hy a ha
      · rw [if_neg hxy]
        refine List.pairwise_cons.mpr ⟨?_, h⟩
        intro a ha
        rcases List.mem_cons.mp ha with rfl | ha
        · exact le_of_not_lt hxy
        · exact le_trans (hy a ha) (le_of_not_lt hxy)

theorem pairwise_sortKeyDesc {α β : Type} [LinearOrder β] (key : α → β)
    (l : List α) :
    (sortKeyDesc key l).Pairwise (fun a b => key b ≤ key a) := by
  induction l with
  | nil => simp [sortKeyDesc]
  | cons x xs ih => exact pairwise_insKey key x _ ih

/-- Stability: inserting `x` does not disturb the relative order of the other
elements, and `x` lands in front of every element of equal key. -/
theorem filter_insKey {α β : Type} [LinearOrder β] [DecidableEq α]
    (key : α → β) (x : α) (l : List α) (v : β) :
    (insKey key x l).filter (fun y => key y = v) =
      if key x = v then x :: l.filter (fun y => key y = v)
      else l.filter (fun y => key y = v) := by
  induction l with
  | nil =>
      simp only [insKey]
      by_cases h : key x = v
      · rw [if_pos h]; simp [h]
      · rw [if_neg h]; simp [h]
  | cons y ys ih =>
      simp only [insKey]
      by_cases hxy : key x < key y
      · rw [if_pos hxy]
        by_cases hy : key y = v
        · have hx : ¬ key x = v := by
            rintro rfl
            exact absurd (hy ▸ hxy) (lt_irrefl _)
          rw [List.filter_cons_of_pos (by simpa using hy), ih,
            if_neg hx, if_neg hx, List.filter_cons_of_pos (by simpa using hy)]
        · rw [List.filter_cons_of_neg (by simpa using hy), ih]
          by_cases hx : key x = v
          · rw [if_pos hx, if_pos hx, List.filter_cons_of_neg (by simpa using hy)]
          · rw [if_neg hx, if_neg hx, List.filter_cons_of_neg (by simpa using hy)]
      · rw [if_neg hxy]
        by_cases hx : key x = v
        · rw [List.filter_cons_of_pos (by simpa using hx), if_pos hx]
        · rw [List.filter_cons_of_neg (by simpa using hx), if_neg hx]

/-- Ties are broken by the original input order: restricting the sorted list
to any fixed key value reproduces the input's own order. -/
theorem filter_sortKeyDesc {α β : Type} [LinearOrder β] [DecidableEq α]
    (key : α → β) (l : List α) (v : β) :
    (sortKeyDesc key l).filter (fun y => key y = v) =
      l.filter (fun y => key y = v) := by
  induction l with
  | nil => simp [sortKeyDesc]
  | cons x xs ih =>
      have hstep : sortKeyDesc key (x :: xs) = insKey key x (sortKeyDesc key xs) :=
        rfl
      rw [hstep, filter_insKey]
      by_cases hx : key x = v
      · rw [if_pos hx, ih, List.filter_cons_of_pos (by simpa using hx)]
      · rw [if_neg hx, ih, List.filter_cons_of_neg (by simpa using hx)]

/-! ### Lemmas for the engagement aggregator -/

theorem parseAll_eq_map (l : List String)
    (h : ∀ s ∈ l, (parseFloat? s).isSome) :
    parseAll l = some (l.map parsedD) := by
  induction l with
  | nil => simp [parseAll]
  | cons s rest ih =>
      obtain ⟨q, hq⟩ :=
        Option.isSome_iff_exists.mp (h s (List.mem_cons_self s rest))
      have hrest := ih (fun t ht => h t (List.mem_cons_of_mem s ht))
      simp [parseAll, hq, hrest, parsedD]

/-- Claim C5 (amended): on this pipeline every metric field is present; when
every `metrics:score` and `metrics:num_comments` value parses, each average
is the arithmetic mean over all records (and the empty corpus yields
`(0, 0)`).  A present-but-malformed numeral is not excluded: it makes
`astype(float)` raise (see the counterexample theorem). -/
theorem get_engagement_metrics_means (posts : List Post)
    (hs : ∀ p ∈ posts, (parseFloat? p.score).isSome)
    (hc : ∀ p ∈ posts, (parseFloat? p.num_comments).isSome) :
    get_engagement_metrics posts =
      Except.ok ((posts.map (fun p => parsedD p.score)).sum / posts.length,
        (posts.map (fun p => parsedD p.num_comments)).sum / posts.length) := by
  by_cases hp : posts = []
  · subst hp; simp [get_engagement_metrics]
  · have h1 : parseAll (posts.map (fun p => p.score)) =
        some ((posts.map (fun p => p.score)).map parsedD) := by
      refine parseAll_eq_map _ ?_
      intro s hsmem
      obtain ⟨p, hpmem, rfl⟩ := List.mem_map.mp hsmem
      exact hs p hpmem
    have h2 : parseAll (posts.map (fun p => p.num_comments)) =
        some ((posts.map (fun p => p.num_comments)).map parsedD) := by
      refine parseAll_eq_map _ ?_
      intro s hsmem
      obtain ⟨p, hpmem, rfl⟩ := List.mem_map.mp hsmem
      exact hc p hpmem
    simp only [get_engagement_metrics, hp, h1, h2, if_neg hp, List.map_map,
      List.length_map]
    exact rfl

/-- Claim C5 witness: a concrete corpus where all numerals parse; the means are
`(5+7)/2 = 6` and `(3+1)/2 = 2`. -/
theorem get_engagement_metrics_means_witness :
    get_engagement_metrics [sp1, sp2] = Except.ok (6, 2) := by
  have h := get_engagement_metrics_means [sp1, sp2] (by decide) (by decide)
  rw [h]
  exact congrArg Except.ok (by decide)

/-- Claim C5 counterexample: a record whose `metrics:score` is present but not
parseable as a number makes the code raise (`Except.error`), instead of
being excluded from the average as the claim states. -/
theorem get_engagement_metrics_malformed_raises :
    get_engagement_metrics [spBadScore] = Except.error () := by
  rfl

/-! ### Lemmas for the frequency ranker -/

theorem lookupD_countValues_aux (l : List String) :
    ∀ m k, lookupD (l.foldl (fun m v => bump m v 1) m) k 0 =
      lookupD m k 0 + l.count k := by
  induction l with
  | nil => intro m k; simp
  | cons a l ih =>
      intro m k
      rw [List.foldl_cons, ih (bump m a 1) k, lookupD_bump]
      by_cases h : a = k
      · simp [h, List.count_cons]
        omega
      · simp [h, List.count_cons, fun hk : k = a => h hk.symm]

theorem lookupD_countValues (l : List String) (k : String) :
    lookupD (countValues l) k 0 = l.count k := by
  have h := lookupD_countValues_aux l [] k
  simpa [countValues, lookupD] using h

theorem mem_keys_bump {β : Type} [Add β] (m : List (String × β)) (k : String)
    (δ : β) (a : String) :
    a ∈ (bump m k δ).map Prod.fst ↔ a ∈ m.map Prod.fst ∨ a = k := by
  rw [keys_bump]
  by_cases hk : k ∈ m.map Prod.fst
  · rw [if_pos hk]
    constructor
    · exact Or.inl
    · rintro (h | rfl)
      · exact h
      · exact hk
  · rw [if_neg hk]
    simp

theorem nodupKeys_countValues_aux (l : List String) :
    ∀ m : List (String × ℕ), (m.map Prod.fst).Nodup →
      ((l.foldl (fun m v => bump m v 1) m).map Prod.fst).Nodup := by
  induction l with
  | nil => intro m hm; simpa
  | cons a l ih =>
      intro m hm
      rw [List.foldl_cons]
      exact ih (bump m a 1) (nodupKeys_bump m a 1 hm)

theorem nodupKeys_countValues (l : List String) :
    ((countValues l).map Prod.fst).Nodup :=
  nodupKeys_countValues_aux l [] (by simp)

theorem mem_keys_countValues_aux (l : List String) (a : String) :
    ∀ m : List (String × ℕ),
      a ∈ ((l.foldl (fun m v => bump m v 1) m).map Prod.fst) →
      a ∈ m.map Prod.fst ∨ a ∈ l := by
  induction l with
  | nil => intro m hm; exact Or.inl hm
  | cons b l ih =>
      intro m hm
      rw [List.foldl_cons] at hm
      rcases ih (bump m b 1) hm with h | h
      · rcases (mem_keys_bump m b 1 a).mp h with h' | rfl
        · exact Or.inl h'
        · exact Or.inr (List.mem_cons_self _ _)
      · exact Or.inr (List.mem_cons_of_mem _ h)

theorem mem_countValues (l : List String) (vc : String × ℕ)
    (h : vc ∈ countValues l) : vc.2 = l.count vc.1 ∧ vc.1 ∈ l := by
  constructor
  · have hl := mem_lookupD (countValues l) vc.1 vc.2 0
      (nodupKeys_countValues l) (by simpa using h)
    rw [← hl, lookupD_countValues]
  · have hk : vc.1 ∈ (countValues l).map Prod.fst :=
      List.mem_map.mpr ⟨vc, h, rfl⟩
    rcases mem_keys_countValues_aux l vc.1 [] hk with h' | h'
    · simp at h'
    · exact h'

/-- Claim C9 (amended): the ranker's output pairs are sorted by count
descending and truncated to `limit`; each returned pair `(v, c)` gives the
exact multiplicity of the value `v` in the column, for a value occurring in
the column; the empty corpus yields the empty sequence.  (In this pipeline
every field is a present string, so nothing is dropped: in particular the
empty-string value is counted like any other — see the counterexample.) -/
theorem top_values_spec (posts : List Post) (field : Post → String)
    (limit : ℕ) :
    (top_values posts field limit).Pairwise (fun x y => y.2 ≤ x.2) ∧
    (top_values posts field limit).length ≤ limit ∧
    (∀ vc ∈ top_values posts field limit,
      vc.2 = (posts.map field).count vc.1 ∧ vc.1 ∈ posts.map field) ∧
    (posts = [] → top_values posts field limit = []) := by
  by_cases hp : posts = []
  · subst hp
    refine ⟨by simp [top_values], by simp [top_values], ?_, fun _ => rfl⟩
    intro vc hvc
    simp [top_values] at hvc
  · have heq : top_values posts field limit =
        (sortKeyDesc Prod.snd (countValues (posts.map field))).take limit := by
      simp [top_values, hp]
    refine ⟨?_, ?_, ?_, ?_⟩
    · rw [heq]
      exact (pairwise_sortKeyDesc Prod.snd _).sublist (List.take_sublist _ _)
    · rw [heq, List.length_take]
      exact min_le_left _ _
    · intro vc hvc
      rw [heq] at hvc
      have h1 : vc ∈ sortKeyDesc Prod.snd (countValues (posts.map field)) :=
        List.take_subset _ _ hvc
      have h2 : vc ∈ countValues (posts.map field) :=
        (perm_sortKeyDesc Prod.snd _).subset h1
      exact mem_countValues _ vc h2
    · intro h; exact absurd h hp

/-- Claim C9 witness: a concrete corpus with one triple-counted subreddit. -/
theorem top_values_spec_witness :
    (top_values [sp1, sp2, spAlice] (fun p => p.subreddit) 5).Pairwise
      (fun x y => y.2 ≤ x.2) ∧
    (("s", 3) : String × ℕ).2 =
      ([sp1, sp2, spAlice].map (fun p => p.subreddit)).count
        (("s", 3) : String × ℕ).1 :=
  ⟨(top_values_spec [sp1, sp2, spAlice] (fun p => p.subreddit) 5).1,
   ((top_values_spec [sp1, sp2, spAlice] (fun p => p.subreddit) 5).2.2.1
     ("s", 3) (by decide)).1⟩

/-- Claim C9 counterexample: a record whose field value is the empty string is
counted (pandas `value_counts` only drops missing values, and this pipeline
stores empty strings, not missing cells), contradicting the claimed
exclusion of empty values. -/
theorem top_values_counts_empty_string :
    get_top_subreddits [spEmptySub] 5 = [("", 1)] ∧
    ("", 1) ∈ get_top_subreddits [spEmptySub] 5 :=
  ⟨by decide, by decide⟩

/-! ### Lemmas for the sentiment classifier -/

theorem countP_polarity_split (pol : String → ℚ) (l : List String) :
    l.countP (fun t => 0 < pol t) + l.countP (fun t => pol t < 0)
      + l.countP (fun t => ¬ 0 < pol t ∧ ¬ pol t < 0) = l.length := by
  induction l with
  | nil => simp
  | cons a l ih =>
      simp only [List.countP_cons, List.length_cons, decide_eq_true_eq]
      rcases lt_trichotomy (pol a) 0 with h | h | h
      · rw [if_neg (lt_asymm h), if_pos h, if_neg (fun hand => hand.2 h)]
        omega
      · have h1 : ¬ (0 < pol a) := by rw [h]; exact lt_irrefl 0
        have h2 : ¬ (pol a < 0) := by rw [h]; exact lt_irrefl 0
        rw [if_neg h1, if_neg h2, if_pos ⟨h1, h2⟩]
        omega
      · rw [if_pos h, if_neg (lt_asymm h), if_neg (fun hand => hand.1 h)]
        omega

theorem sentimentOf_sum (pol : String → ℚ) (texts : List String)
    (h : texts ≠ []) :
    (sentimentOf pol texts).positive + (sentimentOf pol texts).neutral
      + (sentimentOf pol texts).negative = 1 := by
  have htot := countP_polarity_split pol texts
  have hpos : 0 < texts.countP (fun t => 0 < pol t)
      + texts.countP (fun t => pol t < 0)
      + texts.countP (fun t => ¬ 0 < pol t ∧ ¬ pol t < 0) := by
    rw [htot]
    exact List.length_pos.mpr h
  simp only [sentimentOf]
  rw [if_pos hpos]
  set A := texts.countP (fun t => 0 < pol t) with hA
  set B := texts.countP (fun t => pol t < 0) with hB
  set C := texts.countP (fun t => ¬ 0 < pol t ∧ ¬ pol t < 0) with hC
  have hne : ((A + B + C : ℕ) : ℚ) ≠ 0 := by
    exact_mod_cast Nat.pos_iff_ne_zero.mp hpos
  rw [div_add_div_same, div_add_div_same]
  have hcast : ((A : ℚ) + C + B) = ((A + B + C : ℕ) : ℚ) := by
    push_cast
    ring
  rw [hcast, div_self hne]

/-- Claim C3 (confirmed): whenever at least one text item is classified (in
this pipeline, whenever either corpus is non-empty) the three returned
values form a probability distribution summing to `1`; with zero classified
items the three raw zero counts come back unnormalized. -/
theorem sentiment_distribution (pol : String → ℚ) (posts : List Post)
    (comments : List Comment) :
    (posts ≠ [] ∨ comments ≠ [] →
      (get_sentiment_trends pol posts comments).positive +
      (get_sentiment_trends pol posts comments).neutral +
      (get_sentiment_trends pol posts comments).negative = 1) ∧
    (posts = [] → comments = [] →
      get_sentiment_trends pol posts comments = ⟨0, 0, 0⟩) := by
  constructor
  · intro hne
    have hguard : ¬ (posts = [] ∧ comments = []) := by tauto
    have hrw : get_sentiment_trends pol posts comments =
        sentimentOf pol
          (posts.map (fun p => p.title) ++ comments.map (fun c => c.text)) := by
      simp [get_sentiment_trends, hguard]
    rw [hrw]
    refine sentimentOf_sum pol _ ?_
    rcases hne with hne | hne
    · intro hcontra
      rcases List.append_eq_nil.mp hcontra with ⟨h1, _⟩
      exact hne (List.map_eq_nil_iff.mp h1)
    · intro hcontra
      rcases List.append_eq_nil.mp hcontra with ⟨_, h2⟩
      exact hne (List.map_eq_nil_iff.mp h2)
  · intro h1 h2
    simp [get_sentiment_trends, h1, h2]

/-- Claim C3 witness: one post, zero comments, polarity constantly `0`: the
distribution is `0 + 1 + 0 = 1`. -/
theorem sentiment_distribution_witness :
    (get_sentiment_trends (fun _ => 0) [sp1] []).positive +
    (get_sentiment_trends (fun _ => 0) [sp1] []).neutral +
    (get_sentiment_trends (fun _ => 0) [sp1] []).negative = 1 :=
  (sentiment_distribution (fun _ => 0) [sp1] []).1 (Or.inl (by decide))

/-! ### Lemmas for the reply graph -/

theorem edges_addNode (G : NxDiGraph) (v : String) :
    (addNode G v).edges = G.edges := by
  unfold addNode
  split <;> rfl

theorem mem_edges_addEdgeAux (G1 : NxDiGraph) (u v a b : String) :
    (a, b) ∈ (addEdgeAux G1 u v).edges ↔
      (a, b) ∈ G1.edges ∨ (a = u ∧ b = v) := by
  unfold addEdgeAux
  by_cases h : (u, v) ∈ G1.edges
  · rw [if_pos h]
    constructor
    · exact Or.inl
    · rintro (hm | ⟨rfl, rfl⟩)
      · exact hm
      · exact h
  · rw [if_neg h]
    simp [List.mem_append, Prod.ext_iff]

theorem mem_edges_addEdge (G : NxDiGraph) (u v a b : String) :
    (a, b) ∈ (addEdge G u v).edges ↔ (a, b) ∈ G.edges ∨ (a = u ∧ b = v) := by
  unfold addEdge
  rw [mem_edges_addEdgeAux, edges_addNode, edges_addNode]

theorem mem_edges_buildAux (comments : List Comment) (l : List Comment) :
    ∀ (G : NxDiGraph) (a b : String),
      ((a, b) ∈ (l.foldl (fun G c =>
        match edgeOf comments c with
        | some e => addEdge G e.1 e.2
        | none => G) G).edges ↔
      ((a, b) ∈ G.edges ∨ ∃ c ∈ l, edgeOf comments c = some (a, b))) := by
  induction l with
  | nil => intro G a b; simp
  | cons c l ih =>
      intro G a b
      rw [List.foldl_cons]
      cases hc : edgeOf comments c with
      | none =>
          dsimp only
          rw [ih]
          constructor
          · rintro (hm | ⟨c', hc', he⟩)
            · exact Or.inl hm
            · exact Or.inr ⟨c', List.mem_cons_of_mem c hc', he⟩
          · rintro (hm | ⟨c', hc', he⟩)
            · exact Or.inl hm
            · rcases List.mem_cons.mp hc' with rfl | hc'
              · rw [hc] at he; cases he
              · exact Or.inr ⟨c', hc', he⟩
      | some e =>
          dsimp only
          rw [ih, mem_edges_addEdge]
          constructor
          · rintro ((hm | ⟨rfl, rfl⟩) | ⟨c', hc', he⟩)
            · exact Or.inl hm
            · refine Or.inr ⟨c, List.mem_cons_self c l, ?_⟩
              rw [hc]
            · exact Or.inr ⟨c', List.mem_cons_of_mem c hc', he⟩
          · rintro (hm | ⟨c', hc', he⟩)
            · exact Or.inl (Or.inl hm)
            · rcases List.mem_cons.mp hc' with rfl | hc'
              · rw [hc] at he
                injection he with he
                exact Or.inl (Or.inr ⟨congrArg Prod.fst he.symm,
                  congrArg Prod.snd he.symm⟩)
              · exact Or.inr ⟨c', hc', he⟩

theorem mem_edges_buildReplyGraph (comments : List Comment) (a b : String) :
    (a, b) ∈ (buildReplyGraph comments).edges ↔
      ∃ c ∈ comments, edgeOf comments c = some (a, b) := by
  unfold buildReplyGraph
  rw [mem_edges_buildAux comments comments ⟨[], []⟩ a b]
  simp

theorem strStartsWith_t1_ne_empty (s : String) :
    strStartsWith s "t1_" = true → s ≠ "" := by
  intro h heq
  subst heq
  exact absurd h (by decide)

theorem strStartsWith_t3_not_t1 (s : String) :
    strStartsWith s "t3_" = true → strStartsWith s "t1_" = false := by
  intro h3
  cases hb : strStartsWith s "t1_" with
  | false => rfl
  | true =>
      exfalso
      unfold strStartsWith at h3 hb
      obtain ⟨t3tail, h3e⟩ := List.isPrefixOf_iff_prefix.mp h3
      obtain ⟨t1tail, h1e⟩ := List.isPrefixOf_iff_prefix.mp hb
      rw [← h3e] at h1e
      simp at h1e

theorem edgeOf_eq_some_iff (comments : List Comment) (c : Comment)
    (a b : String) :
    edgeOf comments c = some (a, b) ↔
      c.author = a ∧ c.author ≠ "" ∧ strStartsWith c.parent_id "t1_" = true ∧
      ∃ p, comments.find? (fun q => q.id = strDrop c.parent_id 3) = some p ∧
        p.author = b := by
  unfold edgeOf
  by_cases h : c.author ≠ "" ∧ c.parent_id ≠ "" ∧ strStartsWith c.parent_id "t1_"
  · rw [if_pos h]
    cases hf : comments.find? (fun q => q.id = strDrop c.parent_id 3) with
    | none =>
        simp only [hf]
        constructor
        · intro habs; cases habs
        · rintro ⟨_, _, _, p, hp, _⟩; cases hp
    | some p =>
        simp only [hf, Option.some.injEq, Prod.mk.injEq]
        constructor
        · rintro ⟨rfl, rfl⟩
          exact ⟨rfl, h.1, h.2.2, p, rfl, rfl⟩
        · rintro ⟨rfl, _, _, p', hp', rfl⟩
          subst hp'
          exact ⟨rfl, rfl⟩
  · rw [if_neg h]
    constructor
    · intro habs; cases habs
    · rintro ⟨_, hne, hpre, _⟩
      exact absurd ⟨hne, strStartsWith_t1_ne_empty _ hpre, hpre⟩ h

/-- Claim C2 (confirmed): the reply graph has a directed edge
`author(child) → author(parent)` exactly for the comment records with a
truthy author, a `t1_` (comment-type) `parent_id`, and a resolvable parent in
the corpus; records whose parent is a post (`t3_` prefix), whose author is
missing (empty), or whose parent cannot be resolved contribute no edge (and
the builder is a total function: no error is raised). -/
theorem reply_graph_edges (comments : List Comment) :
    (∀ a b, ((a, b) ∈ (buildReplyGraph comments).edges ↔
      ∃ c ∈ comments, c.author = a ∧ c.author ≠ "" ∧
        strStartsWith c.parent_id "t1_" = true ∧
        ∃ p, comments.find? (fun q => q.id = strDrop c.parent_id 3) = some p ∧
          p.author = b)) ∧
    (∀ c : Comment, strStartsWith c.parent_id "t3_" = true →
      edgeOf comments c = none) ∧
    (∀ c : Comment, c.author = "" → edgeOf comments c = none) ∧
    (∀ c : Comment,
      comments.find? (fun q => q.id = strDrop c.parent_id 3) = none →
      edgeOf comments c = none) := by
  refine ⟨?_, ?_, ?_, ?_⟩
  · intro a b
    rw [mem_edges_buildReplyGraph]
    constructor
    · rintro ⟨c, hc, he⟩
      exact ⟨c, hc, (edgeOf_eq_some_iff comments c a b).mp he⟩
    · rintro ⟨c, hc, he⟩
      exact ⟨c, hc, (edgeOf_eq_some_iff comments c a b).mpr he⟩
  · intro c h3
    cases he : edgeOf comments c with
    | none => rfl
    | some e =>
        exfalso
        have := (edgeOf_eq_some_iff comments c e.1 e.2).mp (by rw [he])
        rw [strStartsWith_t3_not_t1 _ h3] at this
        exact absurd this.2.2.1 (by simp)
  · intro c hempty
    unfold edgeOf
    rw [if_neg]
    rintro ⟨hne, _, _⟩
    exact hne hempty
  · intro c hfind
    unfold edgeOf
    by_cases h : c.author ≠ "" ∧ c.parent_id ≠ "" ∧ strStartsWith c.parent_id "t1_"
    · rw [if_pos h, hfind]
    · rw [if_neg h]

/-- Claim C2 witness: concrete no-edge records (post-parent, empty author,
unresolvable parent) contribute nothing. -/
theorem reply_graph_edges_witness :
    edgeOf [scA, scB, scPost, scNoParent] scPost = none ∧
    edgeOf [scA, scB, scPost, scNoParent] scA = none ∧
    edgeOf [scA, scB, scPost, scNoParent] scNoParent = none :=
  ⟨(reply_graph_edges [scA, scB, scPost, scNoParent]).2.1 scPost (by decide),
   (reply_graph_edges [scA, scB, scPost, scNoParent]).2.2.1 scA rfl,
   (reply_graph_edges [scA, scB, scPost, scNoParent]).2.2.2 scNoParent
     (by decide)⟩

/-! ### Lemmas for the influence scorer -/

theorem lookupD_accPosts (ps : List Post) :
    ∀ m m' : List (String × ℚ), accPosts m ps = Except.ok m' →
      ∀ a, lookupD m' a 0 = lookupD m a 0 +
        (ps.map (fun p =>
          if p.author = a ∧ a ≠ "" then parsedD p.score else 0)).sum := by
  induction ps with
  | nil =>
      intro m m' h a
      injection h with h
      subst h
      simp
  | cons p ps ih =>
      intro m m' h a
      rw [accPosts] at h
      cases hp : parseFloat? p.score with
      | none => rw [hp] at h; cases h
      | some s =>
          rw [hp] at h
          have hps : parsedD p.score = s := by rw [parsedD, hp]; rfl
          have hrec := ih _ m' h a
          by_cases hau : p.author ≠ ""
          · rw [if_pos hau] at hrec
            rw [hrec, lookupD_bump]
            by_cases haa : p.author = a
            · subst haa
              rw [if_pos rfl, List.map_cons, List.sum_cons,
                if_pos ⟨rfl, hau⟩, hps]
              ring
            · rw [if_neg haa, List.map_cons, List.sum_cons, if_neg ?_]
              · ring
              · rintro ⟨h1, _⟩; exact haa h1
          · rw [if_neg hau] at hrec
            have hcond : ¬ (p.author = a ∧ a ≠ "") := by
              rintro ⟨h1, h2⟩
              exact h2 (h1 ▸ not_ne_iff.mp hau)
            rw [hrec, List.map_cons, List.sum_cons, if_neg hcond]
            ring

theorem lookupD_accComments (cs : List Comment) :
    ∀ m m' : List (String × ℚ), accComments m cs = Except.ok m' →
      ∀ a, lookupD m' a 0 = lookupD m a 0 +
        (cs.map (fun c =>
          if c.author = a ∧ a ≠ "" then parsedD c.score * (1 / 2) else 0)).sum := by
  induction cs with
  | nil =>
      intro m m' h a
      injection h with h
      subst h
      simp
  | cons c cs ih =>
      intro m m' h a
      rw [accComments] at h
      cases hp : parseFloat? c.score with
      | none => rw [hp] at h; cases h
      | some s =>
          rw [hp] at h
          have hps : parsedD c.score = s := by rw [parsedD, hp]; rfl
          have hrec := ih _ m' h a
          by_cases hau : c.author ≠ ""
          · rw [if_pos hau] at hrec
            rw [hrec, lookupD_bump]
            by_cases haa : c.author = a
            · subst haa
              rw [if_pos rfl, List.map_cons, List.sum_cons,
                if_pos ⟨rfl, hau⟩, hps]
              ring
            · rw [if_neg haa, List.map_cons, List.sum_cons, if_neg ?_]
              · ring
              · rintro ⟨h1, _⟩; exact haa h1
          · rw [if_neg hau] at hrec
            have hcond : ¬ (c.author = a ∧ a ≠ "") := by
              rintro ⟨h1, h2⟩
              exact h2 (h1 ▸ not_ne_iff.mp hau)
            rw [hrec, List.map_cons, List.sum_cons, if_neg hcond]
            ring

theorem lookupD_addCent (l : List (String × ℚ)) :
    ∀ m a, lookupD (addCent m l) a 0 = lookupD m a 0 +
      (l.map (fun vc => if vc.1 = a then vc.2 * 100 else 0)).sum := by
  induction l with
  | nil => intro m a; simp [addCent]
  | cons vc l ih =>
      intro m a
      obtain ⟨v, c⟩ := vc
      rw [addCent, ih, lookupD_bump, List.map_cons, List.sum_cons]
      by_cases hva : v = a
      · rw [if_pos hva]; ring
      · rw [if_neg hva]; ring

theorem sum_centIte_of_not_mem (l : List (String × ℚ)) (a : String)
    (h : a ∉ l.map Prod.fst) :
    (l.map (fun vc => if vc.1 = a then vc.2 * 100 else 0)).sum = 0 := by
  induction l with
  | nil => simp
  | cons vc l ih =>
      rw [List.map_cons] at h ⊢
      rw [List.sum_cons,
        if_neg (fun he => h (List.mem_cons.mpr (Or.inl he.symm))),
        ih (fun hm => h (List.mem_cons.mpr (Or.inr hm)))]
      ring

theorem sum_centIte_eq_lookupD (l : List (String × ℚ)) (a : String)
    (h : (l.map Prod.fst).Nodup) :
    (l.map (fun vc => if vc.1 = a then vc.2 * 100 else 0)).sum =
      lookupD l a 0 * 100 := by
  induction l with
  | nil => simp [lookupD]
  | cons vc l ih =>
      obtain ⟨v, c⟩ := vc
      rw [List.map_cons] at h
      rw [List.map_cons, List.sum_cons]
      by_cases hva : v = a
      · subst hva
        rw [if_pos rfl, sum_centIte_of_not_mem l v (List.nodup_cons.mp h).1]
        rw [lookupD]
        rw [if_pos rfl]
        ring
      · rw [if_neg hva, ih (List.nodup_cons.mp h).2, lookupD, if_neg hva]
        ring

theorem mem_keys_accPosts (ps : List Post) :
    ∀ m m' : List (String × ℚ), accPosts m ps = Except.ok m' →
      ∀ a, (a ∈ m'.map Prod.fst ↔
        a ∈ m.map Prod.fst ∨ ∃ p ∈ ps, p.author = a ∧ a ≠ "") := by
  induction ps with
  | nil =>
      intro m m' h a
      injection h with h
      subst h
      simp
  | cons p ps ih =>
      intro m m' h a
      rw [accPosts] at h
      cases hp : parseFloat? p.score with
      | none => rw [hp] at h; cases h
      | some s =>
          rw [hp] at h
          have hrec := ih _ m' h a
          by_cases hau : p.author ≠ ""
          · rw [if_pos hau] at hrec
            rw [hrec, mem_keys_bump]
            constructor
            · rintro ((hm | rfl) | ⟨p', hp', he, hne⟩)
              · exact Or.inl hm
              · exact Or.inr ⟨p, List.mem_cons_self p ps, rfl, hau⟩
              · exact Or.inr ⟨p', List.mem_cons_of_mem p hp', he, hne⟩
            · rintro (hm | ⟨p', hp', he, hne⟩)
              · exact Or.inl (Or.inl hm)
              · rcases List.mem_cons.mp hp' with rfl | hp'
                · exact Or.inl (Or.inr he.symm)
                · exact Or.inr ⟨p', hp', he, hne⟩
          · rw [if_neg hau] at hrec
            have hae : p.author = "" := not_ne_iff.mp hau
            rw [hrec]
            constructor
            · rintro (hm | ⟨p', hp', he, hne⟩)
              · exact Or.inl hm
              · exact Or.inr ⟨p', List.mem_cons_of_mem p hp', he, hne⟩
            · rintro (hm | ⟨p', hp', he, hne⟩)
              · exact Or.inl hm
              · rcases List.mem_cons.mp hp' with rfl | hp'
                · exact absurd (he ▸ hae) hne
                · exact Or.inr ⟨p', hp', he, hne⟩

theorem mem_keys_accComments (cs : List Comment) :
    ∀ m m' : List (String × ℚ), accComments m cs = Except.ok m' →
      ∀ a, (a ∈ m'.map Prod.fst ↔
        a ∈ m.map Prod.fst ∨ ∃ c ∈ cs, c.author = a ∧ a ≠ "") := by
  induction cs with
  | nil =>
      intro m m' h a
      injection h with h
      subst h
      simp
  | cons c cs ih =>
      intro m m' h a
      rw [accComments] at h
      cases hp : parseFloat? c.score with
      | none => rw [hp] at h; cases h
      | some s =>
          rw [hp] at h
          have hrec := ih _ m' h a
          by_cases hau : c.author ≠ ""
          · rw [if_pos hau] at hrec
            rw [hrec, mem_keys_bump]
            constructor
            · rintro ((hm | rfl) | ⟨c', hc', he, hne⟩)
              · exact Or.inl hm
              · exact Or.inr ⟨c, List.mem_cons_self c cs, rfl, hau⟩
              · exact Or.inr ⟨c', List.mem_cons_of_mem c hc', he, hne⟩
            · rintro (hm | ⟨c', hc', he, hne⟩)
              · exact Or.inl (Or.inl hm)
              · rcases List.mem_cons.mp hc' with rfl | hc'
                · exact Or.inl (Or.inr he.symm)
                · exact Or.inr ⟨c', hc', he, hne⟩
          · rw [if_neg hau] at hrec
            have hae : c.author = "" := not_ne_iff.mp hau
            rw [hrec]
            constructor
            · rintro (hm | ⟨c', hc', he, hne⟩)
              · exact Or.inl hm
              · exact Or.inr ⟨c', List.mem_cons_of_mem c hc', he, hne⟩
            · rintro (hm | ⟨c', hc', he, hne⟩)
              · exact Or.inl hm
              · rcases List.mem_cons.mp hc' with rfl | hc'
                · exact absurd (he ▸ hae) hne
                · exact Or.inr ⟨c', hc', he, hne⟩

theorem nodupKeys_accPosts (ps : List Post) :
    ∀ m m' : List (String × ℚ), accPosts m ps = Except.ok m' →
      (m.map Prod.fst).Nodup → (m'.map Prod.fst).Nodup := by
  induction ps with
  | nil =>
      intro m m' h hm
      injection h with h
      subst h
      exact hm
  | cons p ps ih =>
      intro m m' h hm
      rw [accPosts] at h
      cases hp : parseFloat? p.score with
      | none => rw [hp] at h; cases h
      | some s =>
          rw [hp] at h
          dsimp only at h
          by_cases hau : p.author ≠ ""
          · rw [if_pos hau] at h
            exact ih _ m' h (nodupKeys_bump m p.author s hm)
          · rw [if_neg hau] at h
            exact ih _ m' h hm

theorem nodupKeys_accComments (cs : List Comment) :
    ∀ m m' : List (String × ℚ), accComments m cs = Except.ok m' →
      (m.map Prod.fst).Nodup → (m'.map Prod.fst).Nodup := by
  induction cs with
  | nil =>
      intro m m' h hm
      injection h with h
      subst h
      exact hm
  | cons c cs ih =>
      intro m m' h hm
      rw [accComments] at h
      cases hp : parseFloat? c.score with
      | none => rw [hp] at h; cases h
      | some s =>
          rw [hp] at h
          dsimp only at h
          by_cases hau : c.author ≠ ""
          · rw [if_pos hau] at h
            exact ih _ m' h (nodupKeys_bump m c.author _ hm)
          · rw [if_neg hau] at h
            exact ih _ m' h hm

theorem nodupKeys_addCent (l : List (String × ℚ)) :
    ∀ m : List (String × ℚ), (m.map Prod.fst).Nodup →
      ((addCent m l).map Prod.fst).Nodup := by
  induction l with
  | nil => intro m hm; exact hm
  | cons vc l ih =>
      intro m hm
      obtain ⟨v, c⟩ := vc
      rw [addCent]
      exact ih _ (nodupKeys_bump m v _ hm)

theorem keys_map_pair {β : Type} (ns : List String) (f : String → β) :
    ((ns.map (fun v => (v, f v))).map Prod.fst) = ns := by
  induction ns with
  | nil => rfl
  | cons v ns ih => simp [ih]

theorem keys_betweennessAll (G : NxDiGraph) :
    (betweennessAll G).map Prod.fst = G.nodes := by
  rw [betweennessAll]
  exact keys_map_pair G.nodes _

theorem sum_map_ite_filter {α : Type} (P : α → Prop) [DecidablePred P]
    (f : α → ℚ) (l : List α) :
    (l.map (fun x => if P x then f x else 0)).sum =
      ((l.filter (fun x => P x)).map f).sum := by
  induction l with
  | nil => simp
  | cons x l ih =>
      by_cases hx : P x
      · rw [List.map_cons, List.sum_cons, if_pos hx,
          List.filter_cons_of_pos (by simpa using hx), List.map_cons,
          List.sum_cons, ih]
      · rw [List.map_cons, List.sum_cons, if_neg hx,
          List.filter_cons_of_neg (by simpa using hx), ih]
        ring

theorem nodes_addNode_nodup (G : NxDiGraph) (v : String)
    (h : G.nodes.Nodup) : (addNode G v).nodes.Nodup := by
  unfold addNode
  by_cases hv : v ∈ G.nodes
  · rw [if_pos hv]; exact h
  · rw [if_neg hv]
    refine List.Nodup.append h (List.nodup_singleton v) ?_
    intro a ha hb
    rw [List.mem_singleton] at hb
    subst hb
    exact hv ha

theorem nodes_addEdgeAux (G1 : NxDiGraph) (u v : String) :
    (addEdgeAux G1 u v).nodes = G1.nodes := by
  unfold addEdgeAux
  split <;> rfl

theorem nodes_addEdge_nodup (G : NxDiGraph) (u v : String)
    (h : G.nodes.Nodup) : (addEdge G u v).nodes.Nodup := by
  unfold addEdge
  rw [nodes_addEdgeAux]
  exact nodes_addNode_nodup _ v (nodes_addNode_nodup _ u h)

theorem nodes_buildAux_nodup (comments : List Comment) (l : List Comment) :
    ∀ G : NxDiGraph, G.nodes.Nodup →
      (l.foldl (fun G c =>
        match edgeOf comments c with
        | some e => addEdge G e.1 e.2
        | none => G) G).nodes.Nodup := by
  induction l with
  | nil => intro G h; exact h
  | cons c l ih =>
      intro G h
      rw [List.foldl_cons]
      cases hc : edgeOf comments c with
      | none => dsimp only; exact ih G h
      | some e => dsimp only; exact ih _ (nodes_addEdge_nodup G e.1 e.2 h)

theorem nodes_buildReplyGraph_nodup (comments : List Comment) :
    (buildReplyGraph comments).nodes.Nodup :=
  nodes_buildAux_nodup comments comments ⟨[], []⟩ (by simp)

/-- Claim C1 (amended): a score `get_user_influence` returns for an author `a`
with a truthy (non-empty) identity equals
`(sum of a's post scores) · 1 + (sum of a's comment scores) · 0.5 +
(a's betweenness centrality in the reply graph) · 100`, each term `0` when
`a` is absent from that signal.  For the untruthy author `""` the post and
comment sums are skipped by the `if author:` guard, so its score is the
centrality term alone — which is what the counterexample exhibits against
the claim as stated. -/
theorem influence_formula (posts : List Post) (comments : List Comment)
    (limit : ℕ) (out : List (String × ℚ)) (a : String) (s : ℚ)
    (h : get_user_influence posts comments limit = Except.ok out)
    (hmem : (a, s) ∈ out) :
    (a ≠ "" → s = postScoreSum posts a * 1
      + commentScoreSum comments a * (1 / 2)
      + betweennessOf (buildReplyGraph comments) a * 100) ∧
    (a = "" → s = betweennessOf (buildReplyGraph comments) a * 100) := by
  rw [get_user_influence] at h
  by_cases hg : posts = [] ∧ comments = []
  · rw [if_pos hg] at h
    injection h with h
    subst h
    cases hmem
  · rw [if_neg hg] at h
    cases hd : influenceDict posts comments with
    | error e => rw [hd] at h; cases h
    | ok m3 =>
        rw [hd] at h
        dsimp only at h
        injection h with h
        subst h
        rw [influenceDict] at hd
        cases h1 : accPosts [] posts with
        | error e => rw [h1] at hd; cases hd
        | ok m1 =>
            rw [h1] at hd
            dsimp only at hd
            cases h2 : accComments m1 comments with
            | error e => rw [h2] at hd; cases hd
            | ok m2 =>
                rw [h2] at hd
                dsimp only at hd
                injection hd with hd
                have hmem3 : (a, s) ∈ m3 :=
                  (perm_sortKeyDesc Prod.snd m3).subset
                    (List.take_subset _ _ hmem)
                have hnd2 : (m2.map Prod.fst).Nodup :=
                  nodupKeys_accComments comments m1 m2 h2
                    (nodupKeys_accPosts posts [] m1 h1 (by simp))
                have hnd3 : (m3.map Prod.fst).Nodup := by
                  rw [← hd]
                  by_cases hn : (buildReplyGraph comments).nodes ≠ []
                  · rw [if_pos hn]; exact nodupKeys_addCent _ _ hnd2
                  · rw [if_neg hn]; exact hnd2
                have hs : s = lookupD m3 a 0 :=
                  (mem_lookupD m3 a s 0 hnd3 hmem3).symm
                have hstep : lookupD m3 a 0 = lookupD m2 a 0 +
                    betweennessOf (buildReplyGraph comments) a * 100 := by
                  rw [← hd]
                  by_cases hn : (buildReplyGraph comments).nodes ≠ []
                  · rw [if_pos hn, lookupD_addCent, sum_centIte_eq_lookupD _ a ?_]
                    · rfl
                    · rw [keys_betweennessAll]
                      exact nodes_buildReplyGraph_nodup comments
                  · rw [if_neg hn]
                    have hnodes : (buildReplyGraph comments).nodes = [] :=
                      not_ne_iff.mp hn
                    have hb0 : betweennessOf (buildReplyGraph comments) a = 0 := by
                      rw [betweennessOf, betweennessAll, hnodes]
                      rfl
                    rw [hb0]
                    ring
                have hposts : lookupD m1 a 0 =
                    (posts.map (fun p =>
                      if p.author = a ∧ a ≠ "" then parsedD p.score else 0)).sum := by
                  have hx := lookupD_accPosts posts [] m1 h1 a
                  simpa [lookupD] using hx
                have hcomm := lookupD_accComments comments m1 m2 h2 a
                constructor
                · intro ha
                  have hpsum : (posts.map (fun p =>
                      if p.author = a ∧ a ≠ "" then parsedD p.score else 0)).sum =
                      postScoreSum posts a := by
                    have hcong : ∀ p ∈ posts,
                        (if p.author = a ∧ a ≠ "" then parsedD p.score else 0) =
                        (if p.author = a then parsedD p.score else 0) := by
                      intro p _
                      by_cases hp : p.author = a
                      · rw [if_pos ⟨hp, ha⟩, if_pos hp]
                      · rw [if_neg (fun hc => hp hc.1), if_neg hp]
                    rw [List.map_congr_left hcong, sum_map_ite_filter]
                    rfl
                  have hcsum : (comments.map (fun c =>
                      if c.author = a ∧ a ≠ "" then parsedD c.score * (1 / 2)
                      else 0)).sum = commentScoreSum comments a * (1 / 2) := by
                    have hcong : ∀ c ∈ comments,
                        (if c.author = a ∧ a ≠ "" then parsedD c.score * (1 / 2)
                          else 0) =
                        (if c.author = a then parsedD c.score else 0) * (1 / 2) := by
                      intro c _
                      by_cases hc : c.author = a
                      · rw [if_pos ⟨hc, ha⟩, if_pos hc]
                      · rw [if_neg (fun hx => hc hx.1), if_neg hc]
                        ring
                    rw [List.map_congr_left hcong, List.sum_map_mul_right,
                      sum_map_ite_filter]
                    rfl
                  rw [hs, hstep, hcomm, hposts, hpsum, hcsum]
                  ring
                · intro ha
                  have hzero1 : (posts.map (fun p =>
                      if p.author = a ∧ a ≠ "" then parsedD p.score else 0)).sum
                      = 0 := by
                    have hcong : ∀ p ∈ posts,
                        (if p.author = a ∧ a ≠ "" then parsedD p.score else 0) =
                        0 := by
                      intro p _
                      rw [if_neg (fun hc => hc.2 ha)]
                    rw [List.map_congr_left hcong]
                    simp
                  have hzero2 : (comments.map (fun c =>
                      if c.author = a ∧ a ≠ "" then parsedD c.score * (1 / 2)
                      else 0)).sum = 0 := by
                    have hcong : ∀ c ∈ comments,
                        (if c.author = a ∧ a ≠ "" then parsedD c.score * (1 / 2)
                          else 0) = 0 := by
                      intro c _
                      rw [if_neg (fun hc => hc.2 ha)]
                    rw [List.map_congr_left hcong]
                    simp
                  rw [hs, hstep, hcomm, hposts, hzero1, hzero2]
                  ring

/-- Claim C1 counterexample: the post corpus has a record by the author `""`
with score `5`, and that author also enters the influence dict through the
reply graph; the claimed formula assigns `5` but the code assigns `0`
(its post score is dropped by the `if author:` guard). -/
theorem influence_formula_cex :
    get_user_influence [spEmptyAuthor] [scA, scB] 5 =
      Except.ok [("y", 0), ("", 0)] ∧
    postScoreSum [spEmptyAuthor] "" * 1
      + commentScoreSum [scA, scB] "" * (1 / 2)
      + betweennessOf (buildReplyGraph [scA, scB]) "" * 100 = 5 ∧
    ((0 : ℚ) ≠ 5) :=
  ⟨by decide, by decide, by decide⟩

/-- Claim C1 witness: a single post by `alice` with score `5`, no comments:
the amended formula evaluates to `5 · 1 + 0 · 0.5 + 0 · 100 = 5`. -/
theorem influence_formula_witness :
    (5 : ℚ) = postScoreSum [sp1] "alice" * 1
      + commentScoreSum [] "alice" * (1 / 2)
      + betweennessOf (buildReplyGraph []) "alice" * 100 :=
  (influence_formula [sp1] [] 5 [("alice", 5)] "alice" 5
    (by decide) (by decide)).1 (by decide)

/-- Claim C6 (amended): the score accumulation of `get_user_influence` keys
exactly the truthy (non-empty) author identities occurring in either corpus:
a sentinel string such as `"[deleted]"` is included like any other key, but
the empty-string identity is implicitly filtered out by the `if author:`
guards (see the counterexample). -/
theorem score_accumulation_keys (posts : List Post) (comments : List Comment)
    (m1 m2 : List (String × ℚ))
    (h1 : accPosts [] posts = Except.ok m1)
    (h2 : accComments m1 comments = Except.ok m2) (a : String) :
    a ∈ m2.map Prod.fst ↔
      a ≠ "" ∧ ((∃ p ∈ posts, p.author = a) ∨ ∃ c ∈ comments, c.author = a) := by
  rw [mem_keys_accComments comments m1 m2 h2 a,
    mem_keys_accPosts posts [] m1 h1 a]
  simp only [List.map_nil, List.not_mem_nil, false_or]
  constructor
  · rintro (⟨p, hp, he, hne⟩ | ⟨c, hc, he, hne⟩)
    · exact ⟨hne, Or.inl ⟨p, hp, he⟩⟩
    · exact ⟨hne, Or.inr ⟨c, hc, he⟩⟩
  · rintro ⟨hne, ⟨p, hp, he⟩ | ⟨c, hc, he⟩⟩
    · exact Or.inl ⟨p, hp, he, hne⟩
    · exact Or.inr ⟨c, hc, he, hne⟩

/-- Claim C6 witness: `alice` (a truthy identity) is a key of the accumulated
dict for a corpus containing her post. -/
theorem score_accumulation_keys_witness :
    "alice" ∈ ([("alice", (5 : ℚ))]).map Prod.fst :=
  (score_accumulation_keys [spAlice] [] [("alice", 5)] [("alice", 5)]
    (by decide) (by decide) "alice").mpr
    ⟨by decide, Or.inl ⟨spAlice, by decide, rfl⟩⟩

/-- Claim C6 counterexample: a post authored by the empty string with score `5`
is silently dropped (`get_user_influence` returns `[]`), while the same
record authored by `alice` yields `[("alice", 5)]`: empty-string authors are
not "included like any other author key". -/
theorem score_accumulation_keys_cex :
    get_user_influence [spEmptyAuthor] [] 5 = Except.ok [] ∧
    get_user_influence [spAlice] [] 5 = Except.ok [("alice", 5)] :=
  ⟨by decide, by decide⟩

/-- Claim C8 (confirmed): the returned sequence is exactly the influence dict
sorted by total score descending and truncated to `limit`: it is pairwise
descending in the score, has length at most `limit`, and ties are broken by
the dict's stable insertion order (restricting the output to any fixed score
value yields a prefix of the dict entries carrying that value, in dict
order). -/
theorem influence_output_ordering (posts : List Post)
    (comments : List Comment) (limit : ℕ) (m3 out : List (String × ℚ))
    (hd : influenceDict posts comments = Except.ok m3)
    (h : get_user_influence posts comments limit = Except.ok out) :
    out = (sortKeyDesc Prod.snd m3).take limit ∧
    out.Pairwise (fun x y => y.2 ≤ x.2) ∧
    out.length ≤ limit ∧
    ∀ v : ℚ, (out.filter (fun x => x.2 = v)) <+:
      (m3.filter (fun x => x.2 = v)) := by
  have hout : out = (sortKeyDesc Prod.snd m3).take limit := by
    rw [get_user_influence] at h
    by_cases hg : posts = [] ∧ comments = []
    · rw [if_pos hg] at h
      injection h with h
      obtain ⟨hp, hc⟩ := hg
      subst hp
      subst hc
      have hm3 : m3 = [] := by
        have hdd : influenceDict [] [] = Except.ok [] := by decide
        rw [hdd] at hd
        injection hd with hd
        exact hd.symm
      subst hm3
      rw [← h]
      simp [sortKeyDesc]
    · rw [if_neg hg, hd] at h
      dsimp only at h
      injection h with h
      exact h.symm
  refine ⟨hout, ?_, ?_, ?_⟩
  · rw [hout]
    exact (pairwise_sortKeyDesc Prod.snd m3).sublist (List.take_sublist _ _)
  · rw [hout, List.length_take]
    exact min_le_left _ _
  · intro v
    rw [hout, ← filter_sortKeyDesc Prod.snd m3 v]
    have hpre := List.take_prefix limit (sortKeyDesc Prod.snd m3)
    exact hpre.filter _

/-- Claim C8 witness: two posts, limit `1`: the output is the head of the
descending sort of the dict `[("alice", 5), ("bob", 7)]`. -/
theorem influence_output_ordering_witness :
    [("bob", (7 : ℚ))] =
      (sortKeyDesc Prod.snd [("alice", (5 : ℚ)), ("bob", 7)]).take 1 :=
  (influence_output_ordering [sp1, sp2] [] 1 [("alice", 5), ("bob", 7)]
    [("bob", 7)] (by decide) (by decide)).1

/-! ### Theorems for the topic extractor -/

/-- Claim C4 (amended): `get_topics` returns the empty topic list (not an
error) when the corpus is empty — the path the source's guards actually
cover — but when the corpus is non-empty and the vectorizer's vocabulary is
empty (before or after the document-frequency pruning), the underlying
`fit_transform` raises and `get_topics` propagates that error instead of
returning `[]`. -/
theorem get_topics_empty_cases (W : LdaW) (posts : List Post) (k : ℕ) :
    (posts = [] → get_topics W posts k = Except.ok []) ∧
    (posts ≠ [] → ∀ e,
      fitTransform (posts.map (fun p => p.title)) = Except.error e →
      get_topics W posts k = Except.error e) := by
  constructor
  · intro hp
    rw [get_topics, if_pos hp]
  · intro hp e he
    rw [get_topics, if_neg hp, he]

/-- Claim C4 witness: the empty corpus gives `ok []`; the two-document corpus
(titles `"hello"`, `"world"`, every term with document frequency `1 < 2`)
gives the pruning error. -/
theorem get_topics_empty_cases_witness :
    get_topics W0 [] 5 = Except.ok [] ∧
    get_topics W0 [tp1, tp2] 3 =
      Except.error "After pruning, no terms remain" :=
  ⟨(get_topics_empty_cases W0 [] 5).1 rfl,
   (get_topics_empty_cases W0 [tp1, tp2] 3).2 (by decide)
     "After pruning, no terms remain" (by decide)⟩

/-- Claim C4 counterexample: a non-empty corpus whose post-pruning vocabulary
is empty makes `get_topics` raise (`Except.error`), not return the empty
topic list claimed. -/
theorem get_topics_empty_vocab_raises :
    fitTransform ([tp1, tp2].map (fun p => p.title)) =
      Except.error "After pruning, no terms remain" ∧
    get_topics W0 [tp1, tp2] 5 =
      Except.error "After pruning, no terms remain" ∧
    get_topics W0 [tp1, tp2] 5 ≠ Except.ok [] :=
  ⟨by decide, by decide, by decide⟩

/-- Claim C7 (confirmed): topic extraction is deterministic.  The only
stochastic ingredient is the LDA fit, which the code pins to
`random_state=42`; modelling the fit as a seed-indexed family, any two runs
whose families agree at seed `42` — in particular two runs of the same
library code — produce identical topic lists on identical input. -/
theorem get_topics_deterministic (W1 W2 : LdaW) (posts : List Post) (k : ℕ)
    (h : ∀ X i j, W1 X 42 i j = W2 X 42 i j) :
    get_topics W1 posts k = get_topics W2 posts k := by
  rw [get_topics, get_topics]
  by_cases hp : posts = []
  · rw [if_pos hp, if_pos hp]
  · rw [if_neg hp, if_neg hp]
    cases hf : fitTransform (posts.map (fun p => p.title)) with
    | error e => rfl
    | ok fx =>
        dsimp only
        by_cases hx : fx.2.length = 0
        · rw [if_pos hx, if_pos hx]
        · rw [if_neg hx, if_neg hx]
          congr 1
          apply List.map_congr_left
          intro i _
          have hrow : (List.range fx.1.length).map (W1 fx.2 42 i) =
              (List.range fx.1.length).map (W2 fx.2 42 i) :=
            List.map_congr_left (fun j _ => h fx.2 i j)
          rw [fmtTopic, fmtTopic, hrow]

/-- Claim C7 witness: two runs on a concrete three-document corpus agree. -/
theorem get_topics_deterministic_witness :
    get_topics W0 [tp1, tp3, tp4] 5 = get_topics W0 [tp1, tp3, tp4] 5 :=
  get_topics_deterministic W0 W0 [tp1, tp3, tp4] 5 (fun _ _ _ => rfl)

/-- Claim C10 (confirmed): a non-empty `get_topics` result has exactly
`num_topics` formatted lines — one per LDA component, `components_` having
shape `(n_components, n_features)` regardless of the document count — and
each line is built from `topic.argsort()[:-6:-1]`: at most five term
indices, weights descending. -/
theorem get_topics_shape (W : LdaW) (posts : List Post) (k : ℕ)
    (out : List String) (h : get_topics W posts k = Except.ok out)
    (hne : out ≠ []) :
    out.length = k ∧
    (∃ names X, fitTransform (posts.map (fun p => p.title)) =
      Except.ok (names, X) ∧
      out = (List.range k).map (fun i =>
        fmtTopic i names ((List.range names.length).map (W X 42 i)))) ∧
    (∀ row : List ℚ, (topIdx row).length ≤ 5 ∧
      (topIdx row).Pairwise (fun i j => row.getD j 0 ≤ row.getD i 0)) := by
  rw [get_topics] at h
  by_cases hp : posts = []
  · rw [if_pos hp] at h
    injection h with h
    exact absurd h.symm hne
  · rw [if_neg hp] at h
    cases hf : fitTransform (posts.map (fun p => p.title)) with
    | error e => rw [hf] at h; cases h
    | ok fx =>
        rw [hf] at h
        dsimp only at h
        by_cases hx : fx.2.length = 0
        · rw [if_pos hx] at h
          injection h with h
          exact absurd h.symm hne
        · rw [if_neg hx] at h
          injection h with h
          refine ⟨?_, ⟨fx.1, fx.2, ?_, ?_⟩, ?_⟩
          · rw [← h]
            simp
          · rw [← hf]
          · exact h.symm
          · intro row
            constructor
            · rw [topIdx, List.length_take]
              exact min_le_left _ _
            · rw [topIdx]
              exact (pairwise_sortKeyDesc (fun j => row.getD j 0)
                (List.range row.length)).sublist (List.take_sublist _ _)

/-- Claim C10 witness: three documents, three topics requested over the
single surviving vocabulary term `"world"`: exactly three topic lines. -/
theorem get_topics_shape_witness :
    (["Topic 1: world", "Topic 2: world", "Topic 3: world"] :
      List String).length = 3 :=
  (get_topics_shape W0 [tp1, tp3, tp4] 3
    ["Topic 1: world", "Topic 2: world", "Topic 3: world"]
    (by decide) (by decide)).1
